import Mathlib

/-!
A shallow embedding of xenon's core (xenon/core.py): the threshold-evaluation
and infraction-aggregation logic. Numeric complexity scores are embedded as
rationals (Python ints and floats under exact arithmetic), the logger is
embedded as an ordered list of structured events, and the one internal
failure mode (a malformed ignore-spec entry) is embedded with Except.
-/

namespace Xenon

/-- One analyzable unit of the complexity result set: the external analyzer
produces, per block, a dict with keys name, lineno and complexity. -/
structure Block where
  name : String
  lineno : Nat
  complexity : ℚ
deriving DecidableEq

/-- One module's entry in the result dictionary: either the list of its
blocks, or an error marker, a dict with a truthy (nonempty) error string as
tested by the guard in find_infractions. -/
inductive ModuleResult where
  | err (msg : String)
  | blocks (bs : List Block)
deriving DecidableEq

/-- True exactly on the error-marker constructor. -/
def ModuleResult.isErr : ModuleResult → Bool
  | .err _ => true
  | .blocks _ => false

/-- The result dictionary handed to find_infractions: module name to
ModuleResult, in dict insertion order. -/
abbrev ResultSet := List (String × ModuleResult)

/-- The option bag consumed by find_infractions: the three rank ceilings
(absolute, modules, average), the numeric total-average ceiling
(averagenum), and the raw ignore-blocks spec string. None models Python
None; for ignore_blocks both None and the empty string are falsy in the
source's guard. -/
structure Args where
  absolute : Option String
  modules : Option String
  average : Option String
  averagenum : Option ℚ
  ignore_blocks : Option String
deriving DecidableEq

/-- One logged diagnostic. Each constructor carries the values interpolated
into the corresponding logger template in find_infractions:
warnCannotParse is logger.warning with template "cannot parse (module):
(msg)"; errBlockRank is logger.error on the per-block template with module,
lineno, name and rank; errTotalAverage is logger.error "total average
complexity is (avg)"; errAverageRank is logger.error "average complexity is
ranked (rank)"; errModuleRank is logger.error "module (module) has a rank
of (rank)". -/
inductive Event where
  | warnCannotParse (module : String) (msg : String)
  | errBlockRank (module : String) (lineno : Nat) (name : String) (rank : String)
  | errTotalAverage (avg : ℚ)
  | errAverageRank (rank : String)
  | errModuleRank (module : String) (rank : String)
deriving DecidableEq

/-- Severity of an event: the parse-failure warning is the only event logged
through logger.warning; everything else goes through logger.error. -/
def Event.isError : Event → Bool
  | .warnCannotParse .. => false
  | _ => true

/-- True exactly on per-block rank events. -/
def Event.isBlockRank : Event → Bool
  | .errBlockRank .. => true
  | _ => false

/-- True exactly on the numeric total-average event. -/
def Event.isTotalAverage : Event → Bool
  | .errTotalAverage _ => true
  | _ => false

/-- True exactly on the whole-codebase average-rank event. -/
def Event.isAverageRank : Event → Bool
  | .errAverageRank _ => true
  | _ => false

/-- True exactly on per-module average-rank events. -/
def Event.isModuleRank : Event → Bool
  | .errModuleRank .. => true
  | _ => false

/-- Python str.upper as used on rank ceilings: uppercase every character. -/
def strUpper (s : String) : String := ⟨s.data.map Char.toUpper⟩

/-- Python string less-than on the underlying character lists: lexicographic
comparison by code point. -/
def charsLt : List Char → List Char → Bool
  | [], [] => false
  | [], _ :: _ => true
  | _ :: _, [] => false
  | a :: as, b :: bs =>
      if a.toNat < b.toNat then true
      else if b.toNat < a.toNat then false
      else charsLt as bs

/-- Python string less-than: s is lexicographically before t by code point. -/
def strLt (s t : String) : Bool := charsLt s.data t.data

/-- Embeds xenon.core.check: rank > default.upper() if default is not None
else False. Python compares strings lexicographically by code point. -/
def check (rank : String) (default : Option String) : Bool :=
  match default with
  | some d => strLt (strUpper d) rank
  | none => false

/-- Modelled from the spec: radon's cc_rank is an external collaborator (it
is not part of this repository), and the spec fixes its breakpoints --
A: 0-5, B: 6-10, C: 11-20, D: 21-30, E: 31-40, F: 41 and above -- treating
it as a black-box pure function from a numeric score to a rank letter. -/
def cc_rank (score : ℚ) : String :=
  if score ≤ 5 then "A"
  else if score ≤ 10 then "B"
  else if score ≤ 20 then "C"
  else if score ≤ 30 then "D"
  else if score ≤ 40 then "E"
  else "F"

/-- Embeds xenon.core.av: n / m if m != 0 else 0. -/
def av (n : ℚ) (m : ℕ) : ℚ :=
  if m ≠ 0 then n / m else 0

/-- Python str.split with a one-character separator, on the underlying
character list: split at every occurrence of the separator, keeping empty
pieces, so the empty input yields one empty piece. -/
def splitChars (sep : Char) : List Char → List (List Char)
  | [] => [[]]
  | c :: rest =>
      match splitChars sep rest with
      | [] => if c = sep then [[], []] else [[c]]
      | w :: ws => if c = sep then [] :: w :: ws else (c :: w) :: ws

/-- Python str.split with a one-character separator, lifted to String. -/
def pySplit (sep : Char) (s : String) : List String :=
  (splitChars sep s.data).map (fun cs => ⟨cs⟩)

/-- Python str.strip with no argument: drop whitespace from both ends. -/
def pyStrip (s : String) : String :=
  ⟨((s.data.dropWhile Char.isWhitespace).reverse.dropWhile
      Char.isWhitespace).reverse⟩

/-- The defaultdict(list) built by build_blocks_to_ignore, embedded as an
insertion-ordered association list from module name to the list of block
names appended for it. -/
abbrev IgnoreMap := List (String × List String)

/-- blocks_to_ignore[module].append(block) on a defaultdict(list): append to
the existing key's list, or add a new key at the end. -/
def addIgnore (ig : IgnoreMap) (m b : String) : IgnoreMap :=
  match ig with
  | [] => [(m, [b])]
  | (k, v) :: rest =>
      if k = m then (k, v ++ [b]) :: rest else (k, v) :: addIgnore rest m b

/-- blocks_to_ignore.get(module, []): lookup with an empty-list default. -/
def ignoreGet (ig : IgnoreMap) (m : String) : List String :=
  match ig with
  | [] => []
  | (k, v) :: rest => if k = m then v else ignoreGet rest m

/-- The loop of build_blocks_to_ignore over the comma-separated entries:
each entry must split on ":" into exactly a module name and a block name
(both stripped of surrounding whitespace before insertion); the tuple
unpacking raises on any other shape, embedded as an Except.error carrying
the offending entry (the spec's MalformedIgnoreEntry). -/
def ignoreEntriesLoop : List String → IgnoreMap → Except String IgnoreMap
  | [], acc => .ok acc
  | entry :: rest, acc =>
      match pySplit ':' entry with
      | [module_name, block_name] =>
          ignoreEntriesLoop rest
            (addIgnore acc (pyStrip module_name) (pyStrip block_name))
      | _ => .error entry

/-- Embeds xenon.core.build_blocks_to_ignore: a falsy args.ignore_blocks
(None or the empty string) yields the empty dict; otherwise the spec string
is split on "," and each entry is parsed by the entry loop. -/
def build_blocks_to_ignore (ignore_blocks : Option String) :
    Except String IgnoreMap :=
  match ignore_blocks with
  | none => .ok []
  | some s => if s = "" then .ok [] else ignoreEntriesLoop (pySplit ',' s) []

instance {ε α : Type} [DecidableEq ε] [DecidableEq α] : DecidableEq (Except ε α)
  | .ok a, .ok b =>
      if h : a = b then .isTrue (by rw [h]) else .isFalse (by simp [h])
  | .error a, .error b =>
      if h : a = b then .isTrue (by rw [h]) else .isFalse (by simp [h])
  | .ok _, .error _ => .isFalse (by simp)
  | .error _, .ok _ => .isFalse (by simp)

/-- The mutable locals of find_infractions's module pass. -/
structure EvalState where
  infractions : Nat
  module_averages : List (String × ℚ)
  total_cc : ℚ
  total_blocks : Nat
  events : List Event
deriving DecidableEq

/-- The inner block loop of find_infractions for one module: accumulate the
module's score total, and for each block whose rank exceeds the absolute
ceiling and whose name is not in blocks_to_ignore.get(module, []), log the
per-block error event and increment infractions. -/
def blockLoop (ig : IgnoreMap) (absolute : Option String) (module : String) :
    List Block → ℚ → Nat → List Event → ℚ × Nat × List Event
  | [], module_cc, infractions, events => (module_cc, infractions, events)
  | b :: bs, module_cc, infractions, events =>
      let module_cc := module_cc + b.complexity
      let r := cc_rank b.complexity
      if check r absolute && !((ignoreGet ig module).contains b.name) then
        blockLoop ig absolute module bs module_cc (infractions + 1)
          (events ++ [.errBlockRank module b.lineno b.name r])
      else
        blockLoop ig absolute module bs module_cc infractions events

/-- The outer module loop of find_infractions: an error-marked module logs
one warning and is skipped (continue); otherwise the block loop runs and the
module's average, score total and block count are accumulated. -/
def moduleLoop (ig : IgnoreMap) (absolute : Option String) :
    ResultSet → EvalState → EvalState
  | [], st => st
  | (module, ModuleResult.err e) :: rest, st =>
      moduleLoop ig absolute rest
        { st with events := st.events ++ [.warnCannotParse module e] }
  | (module, ModuleResult.blocks bs) :: rest, st =>
      let (module_cc, infractions, events) :=
        blockLoop ig absolute module bs 0 st.infractions st.events
      moduleLoop ig absolute rest
        { infractions := infractions
          module_averages := st.module_averages ++ [(module, av module_cc bs.length)]
          total_cc := st.total_cc + module_cc
          total_blocks := st.total_blocks + bs.length
          events := events }

/-- The final loop of find_infractions over the recorded (module, average)
pairs, in the order recorded: rank each recorded average and check that rank
against the modules ceiling. -/
def moduleRankLoop (modulesCeil : Option String) :
    List (String × ℚ) → Nat → List Event → Nat × List Event
  | [], infractions, events => (infractions, events)
  | (module, ma) :: rest, infractions, events =>
      let mar := cc_rank ma
      if check mar modulesCeil then
        moduleRankLoop modulesCeil rest (infractions + 1)
          (events ++ [.errModuleRank module mar])
      else
        moduleRankLoop modulesCeil rest infractions events

/-- The initial locals of find_infractions: infractions = 0, empty
module_averages, total_cc = 0., total_blocks = 0, nothing logged yet. -/
def initState : EvalState := ⟨0, [], 0, 0, []⟩

/-- The body of find_infractions after blocks_to_ignore has been parsed: the
module pass, then the numeric total-average check, then the total-average
rank check, then the module-average rank loop, in source order. Returns the
final infraction count and the ordered event log. -/
def evalCore (ig : IgnoreMap) (args : Args) (results : ResultSet) :
    Nat × List Event :=
  let st := moduleLoop ig args.absolute results initState
  let av_cc := av st.total_cc st.total_blocks
  let ar := cc_rank av_cc
  let (infractions, events) :=
    match args.averagenum with
    | some ceiling =>
        if av_cc > ceiling then
          (st.infractions + 1, st.events ++ [Event.errTotalAverage av_cc])
        else (st.infractions, st.events)
    | none => (st.infractions, st.events)
  let (infractions, events) :=
    if check ar args.average then
      (infractions + 1, events ++ [Event.errAverageRank ar])
    else (infractions, events)
  moduleRankLoop args.modules st.module_averages infractions events

/-- Embeds xenon.core.find_infractions: parse the ignore spec first (a
malformed entry propagates to the caller before any evaluation runs), then
evaluate the parsed results against the thresholds. -/
def find_infractions (args : Args) (results : ResultSet) :
    Except String (Nat × List Event) :=
  match build_blocks_to_ignore args.ignore_blocks with
  | .error e => .error e
  | .ok ig => .ok (evalCore ig args results)

/-- The per-block infraction condition of the block loop: the block's rank
exceeds the absolute ceiling and its name is not ignored for this module. -/
def blockCond (ig : IgnoreMap) (absolute : Option String) (module : String)
    (b : Block) : Bool :=
  check (cc_rank b.complexity) absolute &&
    !((ignoreGet ig module).contains b.name)

/-- The per-block error event for one block. -/
def blockEvent (module : String) (b : Block) : Event :=
  .errBlockRank module b.lineno b.name (cc_rank b.complexity)

/-- Sum of the complexity scores in a block list. -/
def sumC (bs : List Block) : ℚ := (bs.map Block.complexity).sum

/-- The block-axis events one module's block list contributes. -/
def moduleBlockEvents (ig : IgnoreMap) (absolute : Option String)
    (module : String) (bs : List Block) : List Event :=
  bs.filterMap fun b =>
    if blockCond ig absolute module b then some (blockEvent module b) else none

/-- The block-axis infraction count one module's block list contributes. -/
def moduleBlockCount (ig : IgnoreMap) (absolute : Option String)
    (module : String) (bs : List Block) : Nat :=
  (bs.filter (blockCond ig absolute module)).length

/-- The modules the loop actually analyzes: the non-error entries with their
block lists, in order. -/
def okModules (results : ResultSet) : List (String × List Block) :=
  results.filterMap fun p =>
    match p.2 with
    | .blocks bs => some (p.1, bs)
    | .err _ => none

/-- Total block-axis infractions over the whole result set. -/
def phase1Inf (ig : IgnoreMap) (absolute : Option String)
    (results : ResultSet) : Nat :=
  ((okModules results).map fun p => moduleBlockCount ig absolute p.1 p.2).sum

/-- The events of the module pass in order: one warning per error-marked
module, and the block-axis events of every analyzed module. -/
def phase1Events (ig : IgnoreMap) (absolute : Option String) :
    ResultSet → List Event
  | [] => []
  | (m, ModuleResult.err e) :: rest =>
      Event.warnCannotParse m e :: phase1Events ig absolute rest
  | (m, ModuleResult.blocks bs) :: rest =>
      moduleBlockEvents ig absolute m bs ++ phase1Events ig absolute rest

/-- The (module, average) pairs recorded by the module pass, in order: raw
scores are summed first and the sum is averaged over the block count. -/
def avgList (results : ResultSet) : List (String × ℚ) :=
  (okModules results).map fun p => (p.1, av (sumC p.2) p.2.length)

/-- The whole-codebase score total the module pass accumulates. -/
def totCC (results : ResultSet) : ℚ :=
  ((okModules results).map fun p => sumC p.2).sum

/-- The whole-codebase block count the module pass accumulates. -/
def totBlocks (results : ResultSet) : Nat :=
  ((okModules results).map fun p => p.2.length).sum

/-- The whole-codebase average score. -/
def avTotal (results : ResultSet) : ℚ := av (totCC results) (totBlocks results)

/-- The module-average rank condition of the final loop. -/
def mrCond (modulesCeil : Option String) (p : String × ℚ) : Bool :=
  check (cc_rank p.2) modulesCeil

/-- The module-rank events of the final loop. -/
def mrEvents (modulesCeil : Option String)
    (mas : List (String × ℚ)) : List Event :=
  mas.filterMap fun p =>
    if mrCond modulesCeil p then some (Event.errModuleRank p.1 (cc_rank p.2))
    else none

/-- The module-rank infraction count of the final loop. -/
def mrCount (modulesCeil : Option String) (mas : List (String × ℚ)) : Nat :=
  (mas.filter (mrCond modulesCeil)).length

/-- The numeric total-average condition: a ceiling is configured and the
whole-codebase average strictly exceeds it. -/
def tnFlag (averagenum : Option ℚ) (avcc : ℚ) : Bool :=
  match averagenum with
  | some ceiling => decide (avcc > ceiling)
  | none => false

theorem sumC_cons (b : Block) (bs : List Block) :
    sumC (b :: bs) = b.complexity + sumC bs := by
  simp [sumC]

theorem blockLoop_eq (ig : IgnoreMap) (absolute : Option String)
    (module : String) (bs : List Block) (cc : ℚ) (inf : Nat)
    (evs : List Event) :
    blockLoop ig absolute module bs cc inf evs =
      (cc + sumC bs, inf + moduleBlockCount ig absolute module bs,
        evs ++ moduleBlockEvents ig absolute module bs) := by
  induction bs generalizing cc inf evs with
  | nil => simp [blockLoop, sumC, moduleBlockCount, moduleBlockEvents]
  | cons b rest ih =>
      have hcond : (check (cc_rank b.complexity) absolute &&
          !((ignoreGet ig module).contains b.name)) =
            blockCond ig absolute module b := rfl
      by_cases hc : blockCond ig absolute module b
      · simp only [blockLoop, hcond, hc, if_true, ih]
        simp [sumC_cons, moduleBlockCount, moduleBlockEvents,
          List.filter_cons, List.filterMap_cons, blockEvent, hc,
          Prod.ext_iff]
        exact ⟨by ring, by omega⟩
      · simp only [blockLoop, hcond, hc, if_false, ih]
        simp [sumC_cons, moduleBlockCount, moduleBlockEvents,
          List.filter_cons, List.filterMap_cons, blockEvent, hc,
          Prod.ext_iff]
        ring

theorem moduleLoop_eq (ig : IgnoreMap) (absolute : Option String)
    (rs : ResultSet) (st : EvalState) :
    moduleLoop ig absolute rs st =
      ⟨st.infractions + phase1Inf ig absolute rs,
        st.module_averages ++ avgList rs,
        st.total_cc + totCC rs,
        st.total_blocks + totBlocks rs,
        st.events ++ phase1Events ig absolute rs⟩ := by
  induction rs generalizing st with
  | nil =>
      obtain ⟨a, b, c, d, e⟩ := st
      simp [moduleLoop, phase1Inf, avgList, totCC, totBlocks, phase1Events,
        okModules]
  | cons p rest ih =>
      obtain ⟨m, mr⟩ := p
      obtain ⟨a, b, c, d, e⟩ := st
      cases mr with
      | err msg =>
          simp only [moduleLoop, ih]
          simp [phase1Inf, avgList, totCC, totBlocks, phase1Events,
            okModules, List.filterMap_cons]
      | blocks bs =>
          simp only [moduleLoop, blockLoop_eq, ih]
          simp [phase1Inf, avgList, totCC, totBlocks, phase1Events,
            okModules, List.filterMap_cons, EvalState.mk.injEq]
          exact ⟨by omega, by ring, by omega⟩

theorem moduleRankLoop_eq (modulesCeil : Option String)
    (mas : List (String × ℚ)) (inf : Nat) (evs : List Event) :
    moduleRankLoop modulesCeil mas inf evs =
      (inf + mrCount modulesCeil mas, evs ++ mrEvents modulesCeil mas) := by
  induction mas generalizing inf evs with
  | nil => simp [moduleRankLoop, mrCount, mrEvents]
  | cons p rest ih =>
      obtain ⟨m, ma⟩ := p
      have hcond : check (cc_rank ma) modulesCeil = mrCond modulesCeil (m, ma) :=
        rfl
      by_cases hc : mrCond modulesCeil (m, ma)
      · simp only [moduleRankLoop, hcond, hc, if_true, ih]
        simp [mrCount, mrEvents, List.filter_cons, List.filterMap_cons, hc,
          Prod.ext_iff]
        omega
      · simp only [moduleRankLoop, hcond, hc, if_false, ih]
        simp [mrCount, mrEvents, List.filter_cons, List.filterMap_cons, hc,
          Prod.ext_iff]

theorem evalCore_eq (ig : IgnoreMap) (args : Args) (rs : ResultSet) :
    evalCore ig args rs =
      (phase1Inf ig args.absolute rs
          + (if tnFlag args.averagenum (avTotal rs) then 1 else 0)
          + (if check (cc_rank (avTotal rs)) args.average then 1 else 0)
          + mrCount args.modules (avgList rs),
        phase1Events ig args.absolute rs
          ++ (if tnFlag args.averagenum (avTotal rs) then
                [Event.errTotalAverage (avTotal rs)] else [])
          ++ (if check (cc_rank (avTotal rs)) args.average then
                [Event.errAverageRank (cc_rank (avTotal rs))] else [])
          ++ mrEvents args.modules (avgList rs)) := by
  unfold evalCore
  rw [moduleLoop_eq]
  simp only [initState, avTotal, tnFlag]
  cases hn : args.averagenum with
  | none =>
      by_cases ha : check (cc_rank (av (totCC rs) (totBlocks rs))) args.average
      · simp [ha, moduleRankLoop_eq, List.append_assoc]
      · simp [ha, moduleRankLoop_eq, List.append_assoc]
  | some ceiling =>
      by_cases hx : av (totCC rs) (totBlocks rs) > ceiling
      · by_cases ha : check (cc_rank (av (totCC rs) (totBlocks rs))) args.average
        · simp [hx, ha, moduleRankLoop_eq, List.append_assoc]
        · simp [hx, ha, moduleRankLoop_eq, List.append_assoc]
      · by_cases ha : check (cc_rank (av (totCC rs) (totBlocks rs))) args.average
        · simp [hx, ha, moduleRankLoop_eq, List.append_assoc]
        · simp [hx, ha, moduleRankLoop_eq, List.append_assoc]

/-- Number of error-marked modules in a result set. -/
def errModuleCount (rs : ResultSet) : Nat :=
  (rs.filter fun p => p.2.isErr).length

/-- The parse-failure warnings of the module pass, in order. -/
def warnEvents (rs : ResultSet) : List Event :=
  rs.filterMap fun p =>
    match p.2 with
    | .err e => some (.warnCannotParse p.1 e)
    | .blocks _ => none

/-- The block-axis events of the whole module pass, in order. -/
def blockAxisEvents (ig : IgnoreMap) (absolute : Option String) :
    ResultSet → List Event
  | [] => []
  | (_, ModuleResult.err _) :: rest => blockAxisEvents ig absolute rest
  | (m, ModuleResult.blocks bs) :: rest =>
      moduleBlockEvents ig absolute m bs ++ blockAxisEvents ig absolute rest

/-- A per-block event survives the ignore map exactly when its (module,
name) pair is not listed there; events of the other axes always survive. -/
def keptBy (ig : IgnoreMap) : Event → Bool
  | .errBlockRank m _ name _ => !((ignoreGet ig m).contains name)
  | _ => true

theorem moduleBlockEvents_mem {ig : IgnoreMap} {absolute : Option String}
    {m : String} {bs : List Block} {e : Event}
    (he : e ∈ moduleBlockEvents ig absolute m bs) : ∃ b, e = blockEvent m b := by
  simp only [moduleBlockEvents, List.mem_filterMap] at he
  obtain ⟨b, _, hsome⟩ := he
  by_cases hc : blockCond ig absolute m b
  · rw [if_pos hc] at hsome
    exact ⟨b, (Option.some.inj hsome).symm⟩
  · rw [if_neg hc] at hsome
    cases hsome

theorem moduleBlockEvents_filter_true {p : Event → Bool} {ig : IgnoreMap}
    {absolute : Option String} {m : String} {bs : List Block}
    (hp : ∀ b, p (blockEvent m b) = true) :
    (moduleBlockEvents ig absolute m bs).filter p =
      moduleBlockEvents ig absolute m bs :=
  List.filter_eq_self.mpr fun e he => by
    obtain ⟨b, rfl⟩ := moduleBlockEvents_mem he
    exact hp b

theorem moduleBlockEvents_filter_false {p : Event → Bool} {ig : IgnoreMap}
    {absolute : Option String} {m : String} {bs : List Block}
    (hp : ∀ b, p (blockEvent m b) = false) :
    (moduleBlockEvents ig absolute m bs).filter p = [] := by
  rw [List.filter_eq_nil_iff]
  intro e he
  obtain ⟨b, rfl⟩ := moduleBlockEvents_mem he
  simp [hp b]

theorem mrEvents_mem {modulesCeil : Option String} {mas : List (String × ℚ)}
    {e : Event} (he : e ∈ mrEvents modulesCeil mas) :
    ∃ m ma, e = Event.errModuleRank m (cc_rank ma) := by
  simp only [mrEvents, List.mem_filterMap] at he
  obtain ⟨q, _, hsome⟩ := he
  by_cases hc : mrCond modulesCeil q
  · rw [if_pos hc] at hsome
    exact ⟨q.1, q.2, (Option.some.inj hsome).symm⟩
  · rw [if_neg hc] at hsome
    cases hsome

theorem mrEvents_filter_true {p : Event → Bool} {modulesCeil : Option String}
    {mas : List (String × ℚ)}
    (hp : ∀ m ma, p (Event.errModuleRank m (cc_rank ma)) = true) :
    (mrEvents modulesCeil mas).filter p = mrEvents modulesCeil mas :=
  List.filter_eq_self.mpr fun e he => by
    obtain ⟨m, ma, rfl⟩ := mrEvents_mem he
    exact hp m ma

theorem mrEvents_filter_false {p : Event → Bool} {modulesCeil : Option String}
    {mas : List (String × ℚ)}
    (hp : ∀ m ma, p (Event.errModuleRank m (cc_rank ma)) = false) :
    (mrEvents modulesCeil mas).filter p = [] := by
  rw [List.filter_eq_nil_iff]
  intro e he
  obtain ⟨m, ma, rfl⟩ := mrEvents_mem he
  simp [hp m ma]

theorem length_moduleBlockEvents (ig : IgnoreMap) (absolute : Option String)
    (m : String) (bs : List Block) :
    (moduleBlockEvents ig absolute m bs).length =
      moduleBlockCount ig absolute m bs := by
  induction bs with
  | nil => simp [moduleBlockEvents, moduleBlockCount]
  | cons b rest ih =>
      by_cases hc : blockCond ig absolute m b
      · simp [moduleBlockEvents, moduleBlockCount, List.filterMap_cons,
          List.filter_cons, hc] at ih ⊢
        omega
      · simp [moduleBlockEvents, moduleBlockCount, List.filterMap_cons,
          List.filter_cons, hc] at ih ⊢
        exact ih

theorem length_blockAxisEvents (ig : IgnoreMap) (absolute : Option String)
    (rs : ResultSet) :
    (blockAxisEvents ig absolute rs).length = phase1Inf ig absolute rs := by
  induction rs with
  | nil => simp [blockAxisEvents, phase1Inf, okModules]
  | cons p rest ih =>
      obtain ⟨m, mr⟩ := p
      cases mr with
      | err msg =>
          simpa [blockAxisEvents, phase1Inf, okModules,
            List.filterMap_cons] using ih
      | blocks bs =>
          simp [blockAxisEvents, phase1Inf, okModules, List.filterMap_cons,
            length_moduleBlockEvents] at ih ⊢
          omega

theorem length_mrEvents (modulesCeil : Option String)
    (mas : List (String × ℚ)) :
    (mrEvents modulesCeil mas).length = mrCount modulesCeil mas := by
  induction mas with
  | nil => simp [mrEvents, mrCount]
  | cons q rest ih =>
      by_cases hc : mrCond modulesCeil q
      · simp [mrEvents, mrCount, List.filterMap_cons, List.filter_cons, hc]
          at ih ⊢
        omega
      · simp [mrEvents, mrCount, List.filterMap_cons, List.filter_cons, hc]
          at ih ⊢
        exact ih

theorem length_warnEvents (rs : ResultSet) :
    (warnEvents rs).length = errModuleCount rs := by
  induction rs with
  | nil => simp [warnEvents, errModuleCount]
  | cons p rest ih =>
      obtain ⟨m, mr⟩ := p
      cases mr with
      | err msg =>
          simp [warnEvents, errModuleCount, List.filterMap_cons,
            List.filter_cons, ModuleResult.isErr] at ih ⊢
          omega
      | blocks bs =>
          simpa [warnEvents, errModuleCount, List.filterMap_cons,
            List.filter_cons, ModuleResult.isErr] using ih

theorem phase1Events_filter_isError (ig : IgnoreMap)
    (absolute : Option String) (rs : ResultSet) :
    (phase1Events ig absolute rs).filter Event.isError =
      blockAxisEvents ig absolute rs := by
  induction rs with
  | nil => simp [phase1Events, blockAxisEvents]
  | cons p rest ih =>
      obtain ⟨m, mr⟩ := p
      cases mr with
      | err msg =>
          simpa [phase1Events, blockAxisEvents, Event.isError] using ih
      | blocks bs =>
          simp [phase1Events, blockAxisEvents, List.filter_append, ih,
            moduleBlockEvents_filter_true (p := Event.isError)
              (fun b => rfl)]

theorem phase1Events_filter_isBlockRank (ig : IgnoreMap)
    (absolute : Option String) (rs : ResultSet) :
    (phase1Events ig absolute rs).filter Event.isBlockRank =
      blockAxisEvents ig absolute rs := by
  induction rs with
  | nil => simp [phase1Events, blockAxisEvents]
  | cons p rest ih =>
      obtain ⟨m, mr⟩ := p
      cases mr with
      | err msg =>
          simpa [phase1Events, blockAxisEvents, Event.isBlockRank] using ih
      | blocks bs =>
          simp [phase1Events, blockAxisEvents, List.filter_append, ih,
            moduleBlockEvents_filter_true (p := Event.isBlockRank)
              (fun b => rfl)]

theorem phase1Events_filter_not_isError (ig : IgnoreMap)
    (absolute : Option String) (rs : ResultSet) :
    ((phase1Events ig absolute rs).filter fun e => !e.isError) =
      warnEvents rs := by
  induction rs with
  | nil => simp [phase1Events, warnEvents]
  | cons p rest ih =>
      obtain ⟨m, mr⟩ := p
      cases mr with
      | err msg =>
          simpa [phase1Events, warnEvents, Event.isError,
            List.filterMap_cons] using ih
      | blocks bs =>
          simp [phase1Events, warnEvents, List.filter_append, ih,
            List.filterMap_cons,
            moduleBlockEvents_filter_false (p := fun e => !e.isError)
              (fun b => rfl)]

theorem phase1Events_filter_not_isBlockRank (ig : IgnoreMap)
    (absolute : Option String) (rs : ResultSet) :
    ((phase1Events ig absolute rs).filter fun e => !e.isBlockRank) =
      warnEvents rs := by
  induction rs with
  | nil => simp [phase1Events, warnEvents]
  | cons p rest ih =>
      obtain ⟨m, mr⟩ := p
      cases mr with
      | err msg =>
          simpa [phase1Events, warnEvents, Event.isBlockRank,
            List.filterMap_cons] using ih
      | blocks bs =>
          simp [phase1Events, warnEvents, List.filter_append, ih,
            List.filterMap_cons,
            moduleBlockEvents_filter_false (p := fun e => !e.isBlockRank)
              (fun b => rfl)]

theorem phase1Events_filter_isTotalAverage (ig : IgnoreMap)
    (absolute : Option String) (rs : ResultSet) :
    (phase1Events ig absolute rs).filter Event.isTotalAverage = [] := by
  induction rs with
  | nil => simp [phase1Events]
  | cons p rest ih =>
      obtain ⟨m, mr⟩ := p
      cases mr with
      | err msg =>
          simpa [phase1Events, Event.isTotalAverage] using ih
      | blocks bs =>
          simp [phase1Events, List.filter_append, ih,
            moduleBlockEvents_filter_false (p := Event.isTotalAverage)
              (fun b => rfl)]

theorem phase1Events_filter_isModuleRank (ig : IgnoreMap)
    (absolute : Option String) (rs : ResultSet) :
    (phase1Events ig absolute rs).filter Event.isModuleRank = [] := by
  induction rs with
  | nil => simp [phase1Events]
  | cons p rest ih =>
      obtain ⟨m, mr⟩ := p
      cases mr with
      | err msg =>
          simpa [phase1Events, Event.isModuleRank] using ih
      | blocks bs =>
          simp [phase1Events, List.filter_append, ih,
            moduleBlockEvents_filter_false (p := Event.isModuleRank)
              (fun b => rfl)]

theorem moduleBlockEvents_ignore (ig : IgnoreMap) (absolute : Option String)
    (m : String) (bs : List Block) :
    moduleBlockEvents ig absolute m bs =
      (moduleBlockEvents [] absolute m bs).filter (keptBy ig) := by
  rw [moduleBlockEvents, moduleBlockEvents, List.filter_filterMap]
  refine List.filterMap_congr fun b _ => ?_
  by_cases hchk : check (cc_rank b.complexity) absolute
  · by_cases hig : (ignoreGet ig m).contains b.name
    · have hig' : b.name ∈ ignoreGet ig m := by simpa using hig
      simp [blockCond, hchk, hig', keptBy, blockEvent, Option.filter,
        ignoreGet]
    · have hig' : b.name ∉ ignoreGet ig m := by simpa using hig
      simp [blockCond, hchk, hig', keptBy, blockEvent, Option.filter,
        ignoreGet]
  · simp [blockCond, hchk, Option.filter, ignoreGet]

theorem blockAxisEvents_ignore (ig : IgnoreMap) (absolute : Option String)
    (rs : ResultSet) :
    blockAxisEvents ig absolute rs =
      (blockAxisEvents [] absolute rs).filter (keptBy ig) := by
  induction rs with
  | nil => simp [blockAxisEvents]
  | cons p rest ih =>
      obtain ⟨m, mr⟩ := p
      cases mr with
      | err msg => simpa [blockAxisEvents] using ih
      | blocks bs =>
          simp [blockAxisEvents, List.filter_append, ih.symm,
            (moduleBlockEvents_ignore ig absolute m bs).symm]

theorem char_toNat_ofNat (n : Nat) (h : n.isValidChar) :
    (Char.ofNat n).toNat = n := by
  simp [Char.ofNat, h, Char.ofNatAux, Char.toNat, UInt32.toNat,
    BitVec.toNat_ofNatLt]

theorem charToUpper_idem (c : Char) : c.toUpper.toUpper = c.toUpper := by
  simp only [Char.toUpper]
  split
  · next h =>
      have hv : (c.toNat - 32).isValidChar := by
        left
        omega
      rw [char_toNat_ofNat _ hv]
      have hout : ¬(c.toNat - 32 ≥ 97 ∧ c.toNat - 32 ≤ 122) := by omega
      rw [if_neg hout]
  · rfl

theorem strUpper_idem (s : String) : strUpper (strUpper s) = strUpper s := by
  unfold strUpper
  refine congrArg String.mk ?_
  show (s.data.map Char.toUpper).map Char.toUpper = s.data.map Char.toUpper
  rw [List.map_map]
  exact List.map_congr_left fun c _ => charToUpper_idem c

theorem ignoreEntriesLoop_error :
    ∀ (l : List String) (acc : IgnoreMap),
      (∃ entry ∈ l, (pySplit ':' entry).length ≠ 2) →
      ∃ e, ignoreEntriesLoop l acc = .error e := by
  intro l
  induction l with
  | nil =>
      intro acc h
      simp at h
  | cons entry rest ih =>
      intro acc h
      rcases h with ⟨x, hx, hlen⟩
      rw [List.mem_cons] at hx
      rcases hsp : pySplit ':' entry with _ | ⟨a, tl⟩
      · exact ⟨entry, by simp [ignoreEntriesLoop, hsp]⟩
      · rcases tl with _ | ⟨b, tl2⟩
        · exact ⟨entry, by simp [ignoreEntriesLoop, hsp]⟩
        · rcases tl2 with _ | ⟨c, tl3⟩
          · rcases hx with rfl | hx
            · rw [hsp] at hlen
              simp at hlen
            · obtain ⟨e, he⟩ :=
                ih (addIgnore acc (pyStrip a) (pyStrip b)) ⟨x, hx, hlen⟩
              exact ⟨e, by simp [ignoreEntriesLoop, hsp, he]⟩
          · exact ⟨entry, by simp [ignoreEntriesLoop, hsp]⟩

/-- C7: build_blocks_to_ignore maps an absent or empty ignore spec to the
empty map without error, and on "mod_a:f1, mod_a:f2 , mod_b:g" yields
exactly the map from mod_a to the two names f1 and f2 and from mod_b to g,
with surrounding whitespace trimmed from both sides of every entry and
repeated modules accumulated into one entry. -/
theorem parse_ignore_spec_examples :
    build_blocks_to_ignore none = .ok []
    ∧ build_blocks_to_ignore (some "") = .ok []
    ∧ build_blocks_to_ignore (some "mod_a:f1, mod_a:f2 , mod_b:g") =
        .ok [("mod_a", ["f1", "f2"]), ("mod_b", ["g"])] :=
  ⟨rfl, by decide, by decide⟩

/-- C8: if the ignore spec is nonempty and some comma-separated entry does
not split on ":" into exactly two parts, build_blocks_to_ignore fails with
the MalformedIgnoreEntry error and find_infractions propagates that same
error to the caller: evaluation never runs, so the invocation produces no
events and no infraction count. -/
theorem malformed_ignore_entry_fails_before_evaluation :
    ∀ (args : Args) (rs : ResultSet) (s : String),
      args.ignore_blocks = some s → s ≠ "" →
      (∃ entry ∈ pySplit ',' s, (pySplit ':' entry).length ≠ 2) →
      ∃ e, build_blocks_to_ignore (some s) = .error e
        ∧ find_infractions args rs = .error e := by
  intro args rs s hib hs hbad
  obtain ⟨e, he⟩ := ignoreEntriesLoop_error (pySplit ',' s) [] hbad
  refine ⟨e, ?_, ?_⟩
  · simp [build_blocks_to_ignore, hs, he]
  · simp [find_infractions, hib, build_blocks_to_ignore, hs, he]

theorem malformed_ignore_entry_fails_before_evaluation_witness :
    ∃ e, build_blocks_to_ignore (some "m1-no-colon") = .error e
      ∧ find_infractions ⟨none, none, none, none, some "m1-no-colon"⟩
          [("m1", ModuleResult.blocks [⟨"f", 1, 45⟩])] = .error e :=
  malformed_ignore_entry_fails_before_evaluation
    ⟨none, none, none, none, some "m1-no-colon"⟩
    [("m1", ModuleResult.blocks [⟨"f", 1, 45⟩])] "m1-no-colon" rfl
    (by decide) ⟨"m1-no-colon", by decide, by decide⟩

/-- C9: av is a total function with av n 0 = 0, so a module with zero
blocks records average 0, a result set with zero total blocks has
whole-codebase average 0 with rank A, rank A never exceeds any rank-letter
ceiling, and the zero average never exceeds a nonnegative numeric ceiling:
zero-block inputs alone can produce neither a division error nor an
average-based infraction. -/
theorem av_total_zero_blocks_rank_A :
    ∀ (n : ℚ) (m : Nat) (x : ℚ) (ig : IgnoreMap) (absolute : Option String)
      (md : String) (st : EvalState) (rest : ResultSet) (rs : ResultSet),
      (m = 0 → av n m = 0)
      ∧ cc_rank (av n 0) = "A"
      ∧ moduleLoop ig absolute ((md, ModuleResult.blocks []) :: rest) st =
          moduleLoop ig absolute rest
            { st with module_averages := st.module_averages ++ [(md, 0)] }
      ∧ (totBlocks rs = 0 → avTotal rs = 0 ∧ cc_rank (avTotal rs) = "A")
      ∧ (∀ c ∈ (["A", "B", "C", "D", "E", "F",
                  "a", "b", "c", "d", "e", "f"] : List String),
          check (cc_rank (av n 0)) (some c) = false)
      ∧ (0 ≤ x → ¬ av n 0 > x) := by
  intro n m x ig absolute md st rest rs
  have hav0 : ∀ q : ℚ, av q 0 = 0 := fun q => by simp [av]
  have hrankA : cc_rank 0 = "A" := by norm_num [cc_rank]
  refine ⟨fun hm => by rw [hm, hav0], by rw [hav0, hrankA], ?_, ?_, ?_, ?_⟩
  · simp [moduleLoop, blockLoop, hav0]
  · intro h0
    rw [avTotal, h0, hav0, hrankA]
    exact ⟨rfl, rfl⟩
  · rw [hav0, hrankA]
    decide
  · intro hx
    rw [hav0]
    exact not_lt.mpr hx

theorem av_total_zero_blocks_rank_A_witness :
    av 7 0 = 0 ∧ check (cc_rank (av 7 0)) (some "b") = false
      ∧ ¬ av 7 0 > (2 : ℚ) :=
  ⟨(av_total_zero_blocks_rank_A 7 0 2 [] none "m" initState [] []).1 rfl,
   (av_total_zero_blocks_rank_A 7 0 2 [] none "m" initState
      [] []).2.2.2.2.1 "b" (by decide),
   (av_total_zero_blocks_rank_A 7 0 2 [] none "m" initState
      [] []).2.2.2.2.2 (by norm_num)⟩

/-- C10: check is case-normalizing in its ceiling argument but not in its
rank argument: for every rank string r and ceiling string c, check r (some
c) agrees with check r (some (strUpper c)), check r none is false, and the
lowercase rank "a" is compared as given (it differs from "A" against the
same ceiling "B"). -/
theorem check_normalizes_ceiling_not_rank :
    ∀ (r c : String),
      check r none = false
      ∧ check r (some c) = check r (some (strUpper c))
      ∧ check "a" (some "B") = true
      ∧ check "A" (some "B") = false := by
  intro r c
  refine ⟨rfl, ?_, by decide, by decide⟩
  simp [check, strUpper_idem]

/-- C1: within find_infractions's block loop, every block contributes
exactly one per-block error event, carrying its module, lineno, name and
rank, together with exactly one infraction increment, iff its rank exceeds
the absolute ceiling and its name is not in the ignore set for its module;
otherwise it contributes no event and no increment: the loop extends the
incoming state by exactly the qualifying blocks' events and their count. -/
theorem blockLoop_per_block_infraction_iff :
    ∀ (ig : IgnoreMap) (absolute : Option String) (module : String)
      (b : Block) (bs : List Block) (module_cc : ℚ) (infractions : Nat)
      (events : List Event),
      blockLoop ig absolute module bs module_cc infractions events =
        (module_cc + sumC bs,
          infractions + moduleBlockCount ig absolute module bs,
          events ++ moduleBlockEvents ig absolute module bs)
      ∧ blockLoop ig absolute module [b] module_cc infractions events =
          (if blockCond ig absolute module b then
            (module_cc + b.complexity, infractions + 1,
              events ++ [blockEvent module b])
          else (module_cc + b.complexity, infractions, events)) := by
  intro ig absolute module b bs module_cc infractions events
  refine ⟨blockLoop_eq ig absolute module bs module_cc infractions events, ?_⟩
  rw [blockLoop_eq]
  by_cases hc : blockCond ig absolute module b
  · simp [hc, sumC, moduleBlockCount, moduleBlockEvents]
  · simp [hc, sumC, moduleBlockCount, moduleBlockEvents]

/-- C2: the infraction count computed by find_infractions equals the number
of error-severity events it logs, over any result set, ignore map and
thresholds, and the non-error events are exactly one parse warning per
error-marked module, never counted as infractions. -/
theorem infraction_count_eq_error_events :
    ∀ (ig : IgnoreMap) (args : Args) (rs : ResultSet),
      ((evalCore ig args rs).1 =
          ((evalCore ig args rs).2.filter Event.isError).length
        ∧ ((evalCore ig args rs).2.filter fun e => !e.isError).length =
            errModuleCount rs)
      ∧ ∀ (n : Nat) (evs : List Event),
          find_infractions args rs = .ok (n, evs) →
          n = (evs.filter Event.isError).length
            ∧ (evs.filter fun e => !e.isError).length = errModuleCount rs := by
  intro ig args rs
  have main : ∀ ig' : IgnoreMap,
      (evalCore ig' args rs).1 =
          ((evalCore ig' args rs).2.filter Event.isError).length
        ∧ ((evalCore ig' args rs).2.filter fun e => !e.isError).length =
            errModuleCount rs := by
    intro ig'
    rw [evalCore_eq]
    simp only [List.filter_append, List.length_append,
      phase1Events_filter_isError, phase1Events_filter_not_isError,
      mrEvents_filter_true (p := Event.isError) (fun m ma => rfl),
      mrEvents_filter_false (p := fun e => !e.isError) (fun m ma => rfl),
      length_blockAxisEvents, length_mrEvents, length_warnEvents]
    by_cases htn : tnFlag args.averagenum (avTotal rs) <;>
      by_cases htr : check (cc_rank (avTotal rs)) args.average <;>
        simp [htn, htr, Event.isError]
  refine ⟨main ig, ?_⟩
  intro n evs h
  cases hbi : build_blocks_to_ignore args.ignore_blocks with
  | error er => simp [find_infractions, hbi] at h
  | ok ig' =>
      simp only [find_infractions, hbi, Except.ok.injEq] at h
      have := main ig'
      rw [h] at this
      exact this

theorem infraction_count_eq_error_events_witness :
    (0 : Nat) =
        (([Event.warnCannotParse "m1" "boom"].filter Event.isError).length)
      ∧ (([Event.warnCannotParse "m1" "boom"].filter
            fun e => !e.isError).length)
          = errModuleCount [("m1", ModuleResult.err "boom")] :=
  (infraction_count_eq_error_events [] ⟨none, none, none, none, none⟩
      [("m1", ModuleResult.err "boom")]).2 0
    [Event.warnCannotParse "m1" "boom"] (by decide)

/-- C3: a module whose result is an error marker makes find_infractions log
exactly one warning and skip it: the state is otherwise untouched (no
infraction, no average entry, no score or block-count contribution), and on
the whole run the output differs from the run without that module only by
the inserted warning, with the identical infraction count. -/
theorem error_module_warns_and_skips :
    ∀ (ig : IgnoreMap) (absolute : Option String) (md e : String)
      (st : EvalState) (rest : ResultSet) (args : Args) (rs : ResultSet),
      moduleLoop ig absolute ((md, ModuleResult.err e) :: rest) st =
        moduleLoop ig absolute rest
          { st with events := st.events ++ [Event.warnCannotParse md e] }
      ∧ find_infractions args ((md, ModuleResult.err e) :: rs) =
          Except.map (fun p => (p.1, Event.warnCannotParse md e :: p.2))
            (find_infractions args rs) := by
  intro ig absolute md e st rest args rs
  constructor
  · rfl
  · cases hbi : build_blocks_to_ignore args.ignore_blocks with
    | error er => simp [find_infractions, hbi, Except.map]
    | ok ig' =>
        simp only [find_infractions, hbi, Except.map]
        rw [evalCore_eq, evalCore_eq]
        simp [phase1Inf, okModules, List.filterMap_cons, avgList, totCC,
          totBlocks, avTotal, phase1Events]

/-- C4: the ignore map is invisible to every axis except the per-block one:
module averages and codebase totals are identical with any ignore map and
with the empty one, the non-block events coincide, the count net of block
events coincides, and the block events with an ignore map are exactly the
block events without it filtered to the (module, name) pairs not ignored. -/
theorem ignore_map_frame_effect :
    ∀ (ig : IgnoreMap) (args : Args) (rs : ResultSet),
      (moduleLoop ig args.absolute rs initState).module_averages =
          (moduleLoop [] args.absolute rs initState).module_averages
      ∧ (moduleLoop ig args.absolute rs initState).total_cc =
          (moduleLoop [] args.absolute rs initState).total_cc
      ∧ (moduleLoop ig args.absolute rs initState).total_blocks =
          (moduleLoop [] args.absolute rs initState).total_blocks
      ∧ ((evalCore ig args rs).2.filter fun e => !e.isBlockRank) =
          ((evalCore [] args rs).2.filter fun e => !e.isBlockRank)
      ∧ (evalCore ig args rs).1 -
            ((evalCore ig args rs).2.filter Event.isBlockRank).length =
          (evalCore [] args rs).1 -
            ((evalCore [] args rs).2.filter Event.isBlockRank).length
      ∧ (evalCore ig args rs).2.filter Event.isBlockRank =
          ((evalCore [] args rs).2.filter Event.isBlockRank).filter
            (keptBy ig) := by
  intro ig args rs
  have hblk : ∀ ig' : IgnoreMap,
      (evalCore ig' args rs).2.filter Event.isBlockRank =
        blockAxisEvents ig' args.absolute rs := by
    intro ig'
    rw [evalCore_eq]
    simp only [List.filter_append, phase1Events_filter_isBlockRank,
      mrEvents_filter_false (p := Event.isBlockRank) (fun m ma => rfl)]
    by_cases htn : tnFlag args.averagenum (avTotal rs) <;>
      by_cases htr : check (cc_rank (avTotal rs)) args.average <;>
        simp [htn, htr, Event.isBlockRank]
  have hfil : ∀ ig' : IgnoreMap,
      ((evalCore ig' args rs).2.filter fun e => !e.isBlockRank) =
        warnEvents rs
          ++ (if tnFlag args.averagenum (avTotal rs) then
                [Event.errTotalAverage (avTotal rs)] else [])
          ++ (if check (cc_rank (avTotal rs)) args.average then
                [Event.errAverageRank (cc_rank (avTotal rs))] else [])
          ++ mrEvents args.modules (avgList rs) := by
    intro ig'
    rw [evalCore_eq]
    simp only [List.filter_append, phase1Events_filter_not_isBlockRank,
      mrEvents_filter_true (p := fun e => !e.isBlockRank) (fun m ma => rfl)]
    by_cases htn : tnFlag args.averagenum (avTotal rs) <;>
      by_cases htr : check (cc_rank (avTotal rs)) args.average <;>
        simp [htn, htr, Event.isBlockRank]
  refine ⟨by rw [moduleLoop_eq, moduleLoop_eq],
    by rw [moduleLoop_eq, moduleLoop_eq],
    by rw [moduleLoop_eq, moduleLoop_eq],
    by rw [hfil, hfil], ?_, ?_⟩
  · have hn : ∀ ig' : IgnoreMap, (evalCore ig' args rs).1 =
        phase1Inf ig' args.absolute rs
          + (if tnFlag args.averagenum (avTotal rs) then 1 else 0)
          + (if check (cc_rank (avTotal rs)) args.average then 1 else 0)
          + mrCount args.modules (avgList rs) := by
      intro ig'
      rw [evalCore_eq]
    rw [hn, hn, hblk, hblk, length_blockAxisEvents, length_blockAxisEvents]
    omega
  · rw [hblk, hblk]
    exact blockAxisEvents_ignore ig args.absolute rs

/-- C5: after the per-block pass the recorded (module, average) pairs are
exactly the non-error modules with the average of their raw scores, and the
final loop ranks each recorded average (average first, then rank), emitting
one module-rank error event and one increment exactly for the pairs whose
rank exceeds the modules ceiling, in the order recorded. -/
theorem module_rank_axis_avg_then_rank :
    ∀ (ig : IgnoreMap) (args : Args) (rs : ResultSet)
      (modulesCeil : Option String) (mas : List (String × ℚ)) (inf : Nat)
      (evs : List Event),
      (moduleLoop ig args.absolute rs initState).module_averages =
          ((okModules rs).map fun p => (p.1, av (sumC p.2) p.2.length))
      ∧ moduleRankLoop modulesCeil mas inf evs =
          (inf +
              (mas.filter fun p => check (cc_rank p.2) modulesCeil).length,
            evs ++ mas.filterMap fun p =>
              if check (cc_rank p.2) modulesCeil then
                some (Event.errModuleRank p.1 (cc_rank p.2))
              else none)
      ∧ (evalCore ig args rs).2.filter Event.isModuleRank =
          mrEvents args.modules (avgList rs) := by
  intro ig args rs modulesCeil mas inf evs
  refine ⟨?_, ?_, ?_⟩
  · rw [moduleLoop_eq]
    simp [initState, avgList]
  · rw [moduleRankLoop_eq]
    rfl
  · rw [evalCore_eq]
    simp only [List.filter_append, phase1Events_filter_isModuleRank,
      mrEvents_filter_true (p := Event.isModuleRank) (fun m ma => rfl)]
    by_cases htn : tnFlag args.averagenum (avTotal rs) <;>
      by_cases htr : check (cc_rank (avTotal rs)) args.average <;>
        simp [htn, htr, Event.isModuleRank]

/-- C6: the numeric total-average error event, carrying the whole-codebase
average, is emitted exactly when the averagenum ceiling is set and the
average strictly exceeds it, and setting the ceiling adds exactly one
infraction in that case and zero otherwise: with the ceiling unset this
axis contributes nothing. -/
theorem total_numeric_axis_iff :
    ∀ (ig : IgnoreMap) (args : Args) (rs : ResultSet),
      (evalCore ig args rs).2.filter Event.isTotalAverage =
        (match args.averagenum with
          | some ceiling =>
              if avTotal rs > ceiling then
                [Event.errTotalAverage (avTotal rs)]
              else []
          | none => [])
      ∧ (evalCore ig args rs).1 =
          (evalCore ig
              ⟨args.absolute, args.modules, args.average, none,
                args.ignore_blocks⟩ rs).1
            + (match args.averagenum with
                | some ceiling => if avTotal rs > ceiling then 1 else 0
                | none => 0) := by
  intro ig args rs
  constructor
  · rw [evalCore_eq]
    simp only [List.filter_append, phase1Events_filter_isTotalAverage,
      mrEvents_filter_false (p := Event.isTotalAverage) (fun m ma => rfl)]
    cases hn : args.averagenum with
    | none =>
        by_cases htr : check (cc_rank (avTotal rs)) args.average <;>
          simp [tnFlag, hn, htr, Event.isTotalAverage]
    | some ceiling =>
        by_cases hgt : avTotal rs > ceiling <;>
          by_cases htr : check (cc_rank (avTotal rs)) args.average <;>
            simp [tnFlag, hn, hgt, htr, Event.isTotalAverage]
  · rw [evalCore_eq, evalCore_eq]
    cases hn : args.averagenum with
    | none => simp [tnFlag]
    | some ceiling =>
        by_cases hgt : avTotal rs > ceiling
        · simp [tnFlag, hn, hgt]
          omega
        · simp [tnFlag, hn, hgt]

end Xenon
